import Mathlib

/-!
# llbuild: the Ninja manifest data model and the build result store

A shallow embedding of the classes `BindingSet`, `Node`, `Pool`, `Rule` and
`Manifest` of `include/llbuild/Ninja/Manifest.h` and of the contract of
`BuildDB` in `include/llbuild/Core/BuildDB.h`, followed by the properties
proved about them.

Conventions of the embedding:

* `std::unordered_map<std::string, T>` is `UMap T`: a list of key/value items
  whose keys are pairwise distinct (the container's own invariant, carried in
  the type).  Iteration order is not observable in any statement below.
* a C++ object pointer is `Option Nat`: `none` is the null pointer and
  `some a` is the address `a` of an object in a memory (`Heap`) of scopes.
* `BindingSet::lookup` recurses through a pointer, so it takes the memory it
  dereferences and a fuel bound; `none` stands for a call that does not
  return (fuel exhausted) or that dereferences an address holding no scope.
-/

namespace llbuild

/-! ## `std::unordered_map<std::string, T>` -/

/-- The items of an `std::unordered_map<std::string, T>`: `find` on a raw item list. -/
def itemsFind {β : Type} : List (String × β) → String → Option β
  | [], _ => none
  | (k, v) :: rest, key => if k = key then some v else itemsFind rest key

/-- The raw item list after `m[key] = value`: the existing item for `key` is
overwritten in place, otherwise a new item is added. -/
def itemsAssign {β : Type} : List (String × β) → String → β → List (String × β)
  | [], key, value => [(key, value)]
  | (k, v) :: rest, key, value =>
    if k = key then (k, value) :: rest else (k, v) :: itemsAssign rest key value

/-- The raw item list after `m.erase(key)`. -/
def itemsErase {β : Type} : List (String × β) → String → List (String × β)
  | [], _ => []
  | (k, v) :: rest, key => if k = key then rest else (k, v) :: itemsErase rest key

theorem keys_itemsAssign {β : Type} (l : List (String × β)) (key : String) (value : β) :
    (itemsAssign l key value).map Prod.fst =
      if key ∈ l.map Prod.fst then l.map Prod.fst else l.map Prod.fst ++ [key] := by
  induction l with
  | nil => simp [itemsAssign]
  | cons hd tl ih =>
    obtain ⟨k, v⟩ := hd
    by_cases hk : k = key
    · simp [itemsAssign, hk]
    · have hk2 : ¬ key = k := fun h => hk h.symm
      simp only [itemsAssign, hk, if_false, List.map_cons, ih, List.mem_cons, hk2, false_or]
      split <;> simp

theorem nodup_itemsAssign {β : Type} (l : List (String × β)) (key : String) (value : β)
    (h : (l.map Prod.fst).Nodup) : ((itemsAssign l key value).map Prod.fst).Nodup := by
  rw [keys_itemsAssign]
  split
  · exact h
  · rename_i hmem
    rw [List.nodup_append]
    refine ⟨h, List.nodup_singleton _, ?_⟩
    intro a ha hb
    simp only [List.mem_singleton] at hb
    subst hb
    exact hmem ha

theorem nodup_itemsErase {β : Type} (l : List (String × β)) (key : String)
    (h : (l.map Prod.fst).Nodup) : ((itemsErase l key).map Prod.fst).Nodup := by
  induction l with
  | nil => simp [itemsErase]
  | cons hd tl ih =>
    obtain ⟨k, v⟩ := hd
    simp only [List.map_cons, List.nodup_cons] at h
    by_cases hk : k = key
    · simp [itemsErase, hk, h.2]
    · simp only [itemsErase, hk, if_false, List.map_cons, List.nodup_cons]
      refine ⟨?_, ih h.2⟩
      intro hmem
      apply h.1
      clear ih h
      induction tl with
      | nil => simp [itemsErase] at hmem
      | cons hd2 tl2 ih2 =>
        obtain ⟨k2, v2⟩ := hd2
        by_cases hk2 : k2 = key
        · simp only [itemsErase, hk2, if_true] at hmem
          simp [hmem]
        · simp only [itemsErase, hk2, if_false, List.map_cons, List.mem_cons] at hmem
          rcases hmem with h1 | h1
          · simp [h1]
          · simp [ih2 h1]

/-- An `std::unordered_map<std::string, T>`: items with pairwise distinct keys. -/
structure UMap (β : Type) where
  items : List (String × β)
  nodup : (items.map Prod.fst).Nodup

namespace UMap

variable {β : Type}

theorem ext_items {m1 m2 : UMap β} (h : m1.items = m2.items) : m1 = m2 := by
  cases m1; cases m2; cases h; rfl

instance [DecidableEq β] : DecidableEq (UMap β) := fun m1 m2 =>
  if h : m1.items = m2.items then isTrue (ext_items h)
  else isFalse (fun heq => h (by rw [heq]))

/-- A default-constructed map. -/
def empty : UMap β := ⟨[], List.nodup_nil⟩

/-- The keys of the map. -/
def keys (m : UMap β) : List String := m.items.map Prod.fst

/-- `m.size()`. -/
def size (m : UMap β) : Nat := m.items.length

/-- `m.find(key)`: the mapped value, or `none` for `m.end()`. -/
def find (m : UMap β) (key : String) : Option β := itemsFind m.items key

/-- `m[key] = value`. -/
def assign (m : UMap β) (key : String) (value : β) : UMap β :=
  ⟨itemsAssign m.items key value, nodup_itemsAssign m.items key value m.nodup⟩

/-- `m.emplace(key, value)` (also `m.insert({key, value})`): the map afterwards
and the `bool` of the returned pair, `false` when the key was already present,
in which case the map is left as it was. -/
def emplace (m : UMap β) (key : String) (value : β) : UMap β × Bool :=
  match m.find key with
  | some _ => (m, false)
  | none => (m.assign key value, true)

/-- `m.erase(key)`. -/
def erase (m : UMap β) (key : String) : UMap β :=
  ⟨itemsErase m.items key, nodup_itemsErase m.items key m.nodup⟩

end UMap

/-! ## `class BindingSet` -/

/-- A set of name to value variable bindings. -/
structure BindingSet where
  /-- The parent binding scope, if any (`const BindingSet*`). -/
  ParentScope : Option Nat
  /-- The actual bindings, mapping from Name to Value. -/
  Entries : UMap String
deriving DecidableEq

/-- The memory in which scopes live: the scope at address `a` is `mem[a]?`. -/
abbrev Heap := List BindingSet

namespace BindingSet

/-- `BindingSet(const BindingSet* ParentScope = 0) : ParentScope(ParentScope) {}`. -/
def ctor (ParentScope : Option Nat) : BindingSet := ⟨ParentScope, UMap.empty⟩

/-- `getParentScope()`. -/
def getParentScope (self : BindingSet) : Option Nat := self.ParentScope

/-- `getEntries()`. -/
def getEntries (self : BindingSet) : UMap String := self.Entries

/-- `insert(Name, Value)`: `Entries[Name] = Value;`. -/
def insert (self : BindingSet) (Name Value : String) : BindingSet :=
  { self with Entries := self.Entries.assign Name Value }

/-- `lookup(Name)`: the scope's own entry if there is one, else the parent's
`lookup`, else the empty string.  One unit of fuel is spent per call. -/
def lookup (mem : Heap) : Nat → BindingSet → String → Option String
  | 0, _, _ => none
  | fuel + 1, self, Name =>
    match self.Entries.find Name with
    | some value => some value
    | none =>
      match self.ParentScope with
      | some p =>
        match mem[p]? with
        | some parent => lookup mem fuel parent Name
        | none => none
      | none => some ""

end BindingSet

/-! ## Scopes in memory -/

namespace Heap

/-- Constructing a scope, `BindingSet(ParentScope)`: the object is placed at a
fresh address, which is returned with the memory. -/
def construct (mem : Heap) (ParentScope : Option Nat) : Heap × Nat :=
  (mem ++ [BindingSet.ctor ParentScope], mem.length)

/-- The call `self->insert(Name, Value)` on the scope at address `self`. -/
def insert (mem : Heap) (self : Nat) (Name Value : String) : Heap :=
  match mem[self]? with
  | some s => mem.set self (s.insert Name Value)
  | none => mem

/-- The call `self->lookup(Name)` on the scope at address `self`. -/
def lookup (mem : Heap) (fuel : Nat) (self : Nat) (Name : String) : Option String :=
  match mem[self]? with
  | some s => s.lookup mem fuel Name
  | none => none

/-- The call `self->getEntries().find(Name)` on the scope at address `self`. -/
def entriesFind (mem : Heap) (self : Nat) (Name : String) : Option String :=
  match mem[self]? with
  | some s => s.getEntries.find Name
  | none => none

/-- The list `chain` holds the addresses of the ancestors of the scope at
`self`, nearest first, the last one being a scope without parent: it is what
following `getParentScope()` from `self` visits. -/
def isParentChain (mem : Heap) : Nat → List Nat → Bool
  | self, [] =>
    match mem[self]? with
    | some s => s.getParentScope.isNone
    | none => false
  | self, p :: rest =>
    (match mem[self]? with
     | some s => decide (s.getParentScope = some p)
     | none => false) && isParentChain mem p rest

end Heap

/-- The copy assignment `*self = *other`, which the compiler generates for
`BindingSet`: it copies both members, `ParentScope` included (the member is a
pointer to const, not a const pointer). -/
def Heap.assign (mem : Heap) (self other : Nat) : Heap :=
  match mem[self]?, mem[other]? with
  | some _, some o => mem.set self o
  | _, _ => mem

/-- What a program does with scopes: it constructs one, it inserts a binding
into one, or it assigns one to another. -/
inductive ScopeOp where
  | construct (ParentScope : Option Nat)
  | insert (self : Nat) (Name Value : String)
  | assign (self other : Nat)

namespace ScopeOp

/-- The memory after the operation.  Nothing is checked: the constructor
stores the pointer it is given, whatever it points to. -/
def apply (mem : Heap) : ScopeOp → Heap
  | construct p => (Heap.construct mem p).1
  | insert self Name Value => Heap.insert mem self Name Value
  | assign self other => Heap.assign mem self other

/-- The discipline of a program that builds its scopes parent first: it
gives the constructor a null pointer or the address of a scope constructed
before, it calls `insert` on constructed scopes, and it never assigns one
scope to another.  `BindingSet` enforces none of this; it is the caller's. -/
def parentFirst (mem : Heap) : ScopeOp → Bool
  | construct none => true
  | construct (some p) => decide (p < mem.length)
  | insert self _ _ => decide (self < mem.length)
  | assign _ _ => false

end ScopeOp

/-- The memory after a sequence of operations, whatever they are: the
memories a program can build are the `Heap.exec [] ops`. -/
def Heap.exec (mem : Heap) (ops : List ScopeOp) : Heap := ops.foldl ScopeOp.apply mem

/-- Run a sequence of operations that keeps to `parentFirst`; `none` when
one of them departs from it. -/
def Heap.runParentFirst : Heap → List ScopeOp → Option Heap
  | mem, [] => some mem
  | mem, op :: ops =>
    if op.parentFirst mem then Heap.runParentFirst (op.apply mem) ops else none

/-- The memories built parent first, starting with no scope at all: those a
program keeping to `ScopeOp.parentFirst` builds.  They are some of the
memories a program can build, not all of them. -/
def BuiltParentFirst (mem : Heap) : Prop :=
  ∃ ops : List ScopeOp, Heap.runParentFirst [] ops = some mem

/-- Every scope was constructed after its parent: parent addresses are smaller. -/
def ParentsOlder (mem : Heap) : Prop :=
  ∀ (a : Nat) (s : BindingSet), mem[a]? = some s → ∀ p, s.ParentScope = some p → p < a

/-! ## `class Node`, `class Pool`, `class Rule` -/

/-- A node represents a unique path as present in the manifest. -/
structure Node where
  Path : String
deriving DecidableEq

namespace Node

/-- `explicit Node(const std::string& Path) : Path(Path) {}`. -/
def ctor (Path : String) : Node := ⟨Path⟩

/-- `getPath()`. -/
def getPath (self : Node) : String := self.Path

end Node

/-- The values of a `uint32_t`. -/
abbrev uint32_t := Fin 4294967296

/-- A pool represents a generic bucket for organizing commands. -/
structure Pool where
  /-- The name of the pool. -/
  Name : String
  /-- The pool depth, or 0 if unspecified. -/
  Depth : uint32_t
deriving DecidableEq

namespace Pool

/-- `explicit Pool(const std::string& Name) : Name(Name) {}`, with the member
initialiser `Depth = 0`. -/
def ctor (Name : String) : Pool := ⟨Name, 0⟩

/-- `getName()`. -/
def getName (self : Pool) : String := self.Name

/-- `getDepth()`. -/
def getDepth (self : Pool) : uint32_t := self.Depth

/-- `setDepth(Value)`: `Depth = Value;`. -/
def setDepth (self : Pool) (Value : uint32_t) : Pool := { self with Depth := Value }

end Pool

/-- A rule represents a template which can be expanded to produce a particular command. -/
structure Rule where
  /-- The name of the rule. -/
  Name : String
  /-- The rule parameters, which are all unexpanded string exprs. -/
  Parameters : UMap String
deriving DecidableEq

namespace Rule

/-- `explicit Rule(const std::string& Name) : Name(Name) {}`. -/
def ctor (Name : String) : Rule := ⟨Name, UMap.empty⟩

/-- `getName()`. -/
def getName (self : Rule) : String := self.Name

/-- `getParameters()`. -/
def getParameters (self : Rule) : UMap String := self.Parameters

end Rule

/-! ## `class Manifest` -/

/-- A non-null `std::unique_ptr<T>`: the address of the owned object, and the object. -/
structure Owned (α : Type) where
  addr : Nat
  obj : α
deriving DecidableEq

/-- A `std::unique_ptr<T>`: null, or an owned object. -/
abbrev UniquePtr (α : Type) := Option (Owned α)

/-- `unique_ptr::get()`: the raw pointer. -/
def UniquePtr.get {α : Type} : UniquePtr α → Option Nat
  | none => none
  | some o => some o.addr

/-- A manifest represents the complete set of rules and commands used to perform a build. -/
structure Manifest where
  /-- The top level variable bindings. -/
  Bindings : BindingSet
  /-- The nodes in the manifest, stored as a map on the node name. -/
  Nodes : UMap (UniquePtr Node)
  /-- The pools in the manifest, stored as a map on the pool name. -/
  Pools : UMap (UniquePtr Pool)
  /-- The rules in the manifest, stored as a map on the rule name. -/
  Rules : UMap (UniquePtr Rule)
  /-- The default targets, if specified (`std::vector<Node*>`). -/
  DefaultTargets : List (Option Nat)
deriving DecidableEq

namespace Manifest

/-- The implicit default constructor: every member is default-constructed. -/
def ctor : Manifest := ⟨BindingSet.ctor none, UMap.empty, UMap.empty, UMap.empty, []⟩

/-- `getBindings()`. -/
def getBindings (self : Manifest) : BindingSet := self.Bindings

/-- `getNodes()`. -/
def getNodes (self : Manifest) : UMap (UniquePtr Node) := self.Nodes

/-- `getPools()`. -/
def getPools (self : Manifest) : UMap (UniquePtr Pool) := self.Pools

/-- `getRules()`. -/
def getRules (self : Manifest) : UMap (UniquePtr Rule) := self.Rules

/-- `getDefaultTargets()`. -/
def getDefaultTargets (self : Manifest) : List (Option Nat) := self.DefaultTargets

/-- The pointer `p` is the address of a Node owned by the Nodes set. -/
def ownsNode (self : Manifest) (p : Nat) : Bool :=
  self.getNodes.items.any (fun kv => decide (UniquePtr.get kv.2 = some p))

/-- Every Node referenced in the default-targets list is present in the Nodes set. -/
def defaultTargetsInNodes (self : Manifest) : Bool :=
  self.getDefaultTargets.all (fun t =>
    match t with
    | none => true
    | some p => self.ownsNode p)

end Manifest

/-- What the non-const accessors of `Manifest` let a caller do: `getNodes()`
and `getDefaultTargets()` return references to the containers themselves, so
every mutation of the container is available. -/
inductive ManifestOp where
  /-- `getNodes().emplace(key, std::move(value))`. -/
  | nodesEmplace (key : String) (value : UniquePtr Node)
  /-- `getNodes()[key] = std::move(value)`. -/
  | nodesAssign (key : String) (value : UniquePtr Node)
  /-- `getNodes().erase(key)`. -/
  | nodesErase (key : String)
  /-- `getDefaultTargets().push_back(target)`. -/
  | defaultTargetsPushBack (target : Option Nat)

namespace Manifest

/-- The manifest after one mutation through an accessor. -/
def step (self : Manifest) : ManifestOp → Manifest
  | .nodesEmplace key value => { self with Nodes := (self.Nodes.emplace key value).1 }
  | .nodesAssign key value => { self with Nodes := self.Nodes.assign key value }
  | .nodesErase key => { self with Nodes := self.Nodes.erase key }
  | .defaultTargetsPushBack target => { self with DefaultTargets := self.DefaultTargets ++ [target] }

/-- The manifest after a sequence of mutations. -/
def run (self : Manifest) (ops : List ManifestOp) : Manifest := ops.foldl step self

/-- The mutations of a caller that keeps default targets inside the Nodes
set: it only adds to the Nodes set, and it appends a default target only when
the pointer is null or the address of a Node the set owns at that time. -/
def keepsTargets (self : Manifest) : ManifestOp → Bool
  | .nodesEmplace _ _ => true
  | .nodesAssign _ _ => false
  | .nodesErase _ => false
  | .defaultTargetsPushBack none => true
  | .defaultTargetsPushBack (some p) => self.ownsNode p

/-- Every mutation of the sequence is one of `keepsTargets` in the state it is applied to. -/
def allKeepTargets : Manifest → List ManifestOp → Bool
  | _, [] => true
  | m, op :: ops => m.keepsTargets op && allKeepTargets (m.step op) ops

end Manifest

/-! ## Sample data -/

/-- A program that builds three nested scopes: the top-level scope binds
`cflags` and `cc`, its child rebinds `cc`, the grandchild binds nothing. -/
def sampleProgram : List ScopeOp :=
  [.construct none, .insert 0 "cflags" "-O2", .insert 0 "cc" "gcc",
   .construct (some 0), .insert 1 "cc" "clang", .construct (some 1)]

/-- The memory `sampleProgram` builds. -/
def sampleScopes : Heap :=
  [⟨none, (UMap.empty.assign "cflags" "-O2").assign "cc" "gcc"⟩,
   ⟨some 0, UMap.empty.assign "cc" "clang"⟩,
   ⟨some 1, UMap.empty⟩]

/-- The call `self->insert(Name, Value)` for each binding of a list, in order. -/
def Heap.insertAll (mem : Heap) (self : Nat) (bindings : List (String × String)) : Heap :=
  bindings.foldl (fun m kv => Heap.insert m self kv.1 kv.2) mem

/-- The calls `setDepth(Value)` for each value of a list, in order. -/
def Pool.setDepths (self : Pool) (values : List uint32_t) : Pool :=
  values.foldl Pool.setDepth self

/-- A manifest whose Nodes set holds the node `out.o`, owned at address 0. -/
def sampleManifest : Manifest :=
  Manifest.ctor.run [.nodesEmplace "out.o" (some ⟨0, Node.ctor "out.o"⟩)]

/-- The program `BindingSet a(&a);`: the scope is constructed with its own
address as parent. -/
def selfParentProgram : List ScopeOp := [.construct (some 0)]

/-- The memory `selfParentProgram` builds. -/
def selfParentScopes : Heap := [⟨some 0, UMap.empty⟩]

/-- The program `BindingSet a; BindingSet b(&a); a = b;`: the copy assignment
gives `a` the parent pointer of `b`, which is the address of `a`. -/
def copyAssignProgram : List ScopeOp := [.construct none, .construct (some 0), .assign 0 1]

/-- The memory `copyAssignProgram` builds. -/
def copyAssignScopes : Heap := [⟨some 0, UMap.empty⟩, ⟨some 0, UMap.empty⟩]

/-- The memory `sampleScopes` after the child scope (address 1) has bound
`cflags` to the empty string, over the `-O2` of the top-level scope. -/
def sampleShadowed : Heap := Heap.insert sampleScopes 1 "cflags" ""

/-! ## The result store (`include/llbuild/Core/BuildDB.h`)

`BuildDB` is an abstract class and `createSQLiteBuildDB` is only declared: the
header gives the operations and, in its comments, their contract.  The store
below is modelled from that contract as the spec words it.  Storage failures
during a session are outside the model; only opening can fail.
-/

namespace core

/-- The values of a `uint64_t`. -/
abbrev uint64_t := Fin 18446744073709551616

/-- Modelled from the spec: `struct Result`, which the header only declares.
The spec describes it as the value produced by executing a Rule together with
"a content/command signature, the build iteration at which it was last
computed, and the set of dependencies observed during that computation". -/
structure Result where
  value : Nat
  signature : uint64_t
  computedAt : uint64_t
  dependencies : List String
deriving DecidableEq

/-- Modelled from the spec: what a store keeps behind a path, absent from the
header: the client schema version it was written with, the iteration counter,
and the Result of each rule keyed by the rule's name. -/
structure Database where
  clientSchemaVersion : uint32_t
  iteration : uint64_t
  results : UMap Result
deriving DecidableEq

/-- Modelled from the spec: a database without content, as a new store has and
as the schema reset leaves it ("clear every rule result and reset the
iteration counter"); the implementation is absent from the header. -/
def Database.cleared (clientSchemaVersion : uint32_t) : Database :=
  ⟨clientSchemaVersion, 0, UMap.empty⟩

/-- Modelled from the spec: what is found at a path of the backing medium, a
stored database or a medium that is "unreadable or corrupt"; the storage
engine is absent from the header. -/
inductive Medium where
  | stored (db : Database)
  | unreadable
deriving DecidableEq

/-- Modelled from the spec: the durable storage, by path; a path without item
holds nothing yet.  The storage engine is absent from the header. -/
abbrev Storage := UMap Medium

/-- Modelled from the spec: the two freedoms the contract leaves to an
implementation of `BuildDB`, whose implementation is absent.  It "may elect to
discard" duplicate dependencies from storage, and it "may choose to put all
modifications within the scope of a single build in a single transaction, or
it may choose to eagerly commit partial results". -/
structure Policy where
  discardsDuplicates : Bool
  commitsEagerly : Bool
deriving DecidableEq

/-- Modelled from the spec: the Result as an implementation (absent from the
header) persists it, with the duplicates of the dependency list discarded when
it elects to; no distinct dependency is lost. -/
def Policy.stored (policy : Policy) (result : Result) : Result :=
  if policy.discardsDuplicates then
    { result with dependencies := result.dependencies.dedup }
  else result

/-- Modelled from the spec: an open store, an instance of the abstract class
`BuildDB`: the policy of the implementation, the path it was opened on, the
content it reads and writes, and whether a build is in progress
(`Open(in-build)`) or not (`Open(idle)`). -/
structure BuildDB where
  policy : Policy
  path : String
  content : Database
  inBuild : Bool
deriving DecidableEq

namespace BuildDB

/-- Modelled from the spec: `getCurrentIteration`, pure virtual in the header:
"reads the global counter". -/
def getCurrentIteration (self : BuildDB) : uint64_t := self.content.iteration

/-- Modelled from the spec: `lookupRuleResult`, pure virtual in the header:
the returned `bool` ("True if the database had a stored result for the rule")
and the content of `result_out`; "a miss is not an error". -/
def lookupRuleResult (self : BuildDB) (rule : String) : Bool × Option Result :=
  match self.content.results.find rule with
  | some result => (true, some result)
  | none => (false, none)

/-- Modelled from the spec: the commit of the store's content to the durable
storage, absent from the header. -/
def commit (self : BuildDB) (storage : Storage) : Storage :=
  storage.assign self.path (.stored self.content)

/-- Modelled from the spec: `setCurrentIteration`, pure virtual in the header:
"overwrites the counter"; the store "does not reject a non-increasing value". -/
def setCurrentIteration (self : BuildDB) (storage : Storage) (value : uint64_t) :
    Storage × BuildDB :=
  let next : BuildDB := { self with content := { self.content with iteration := value } }
  (if self.policy.commitsEagerly then next.commit storage else storage, next)

/-- Modelled from the spec: `setRuleResult`, pure virtual in the header:
"inserts or overwrites the Result for the rule identity", the store being
permitted to discard duplicate dependencies before persisting. -/
def setRuleResult (self : BuildDB) (storage : Storage) (rule : String) (result : Result) :
    Storage × BuildDB :=
  let next : BuildDB :=
    { self with content :=
        { self.content with
          results := self.content.results.assign rule (self.policy.stored result) } }
  (if self.policy.commitsEagerly then next.commit storage else storage, next)

/-- Modelled from the spec: `buildStarted`, pure virtual in the header: "marks
the start of a mutation window". -/
def buildStarted (self : BuildDB) : BuildDB := { self with inBuild := true }

/-- Modelled from the spec: `buildComplete`, pure virtual in the header:
"marks the end of the mutation window and is the point at which an
implementation may choose to commit". -/
def buildComplete (self : BuildDB) (storage : Storage) : Storage × BuildDB :=
  (self.commit storage, { self with inBuild := false })

end BuildDB

/-- Modelled from the spec: `createSQLiteBuildDB(path, clientSchemaVersion,
error_out)`, declared in the header without body.  Opening "must create it if
absent and must perform the schema-mismatch reset"; "if the stored schema does
not match the provided version the database will be cleared upon opening"; an
unreadable medium is an error. -/
def createSQLiteBuildDB (policy : Policy) (storage : Storage) (path : String)
    (clientSchemaVersion : uint32_t) : Except String (Storage × BuildDB) :=
  match storage.find path with
  | some .unreadable => .error "unable to open the database"
  | some (.stored db) =>
    if db.clientSchemaVersion = clientSchemaVersion then
      .ok (storage, ⟨policy, path, db, false⟩)
    else
      .ok (storage.assign path (.stored (Database.cleared clientSchemaVersion)),
           ⟨policy, path, Database.cleared clientSchemaVersion, false⟩)
  | none =>
    .ok (storage.assign path (.stored (Database.cleared clientSchemaVersion)),
         ⟨policy, path, Database.cleared clientSchemaVersion, false⟩)

/-- Modelled from the spec: the calls a build engine makes on an open store
(the mutating operations and the window marks of the abstract class). -/
inductive Call where
  | setCurrentIteration (value : uint64_t)
  | setRuleResult (rule : String) (result : Result)
  | buildStarted
  | buildComplete
deriving DecidableEq

/-- Modelled from the spec: the durable storage and the open store after one
call.  When the session ends, the storage is what remains. -/
def BuildDB.call (state : Storage × BuildDB) : Call → Storage × BuildDB
  | .setCurrentIteration value => state.2.setCurrentIteration state.1 value
  | .setRuleResult rule result => state.2.setRuleResult state.1 rule result
  | .buildStarted => (state.1, state.2.buildStarted)
  | .buildComplete => state.2.buildComplete state.1

/-- The durable storage and the open store after a sequence of calls. -/
def BuildDB.calls (state : Storage × BuildDB) (cs : List Call) : Storage × BuildDB :=
  cs.foldl BuildDB.call state

/-- A Result whose dependency list names `a.o` twice. -/
def sampleResult : Result := ⟨7, 11, 3, ["a.o", "b.o", "a.o"]⟩

/-- The storage once a store was created at `build.db` with schema version 1. -/
def sampleStorage : Storage := UMap.empty.assign "build.db" (.stored (Database.cleared 1))

/-- The store just opened on `build.db` with schema version 1. -/
def sampleDB (policy : Policy) : BuildDB := ⟨policy, "build.db", Database.cleared 1, false⟩

/-- A build under `policy` that sets the iteration to 5, writes `sampleResult`
for the rule `link` and completes. -/
def sampleCompleted (policy : Policy) : Storage × BuildDB :=
  BuildDB.calls (sampleStorage, sampleDB policy)
    [.buildStarted, .setCurrentIteration 5, .setRuleResult "link" sampleResult, .buildComplete]

end core

/-! ## Lemmas on the map model -/

theorem itemsFind_assign_same {β : Type} (l : List (String × β)) (key : String) (value : β) :
    itemsFind (itemsAssign l key value) key = some value := by
  induction l with
  | nil => simp [itemsAssign, itemsFind]
  | cons hd tl ih =>
    obtain ⟨k, v⟩ := hd
    by_cases hk : k = key
    · simp [itemsAssign, itemsFind, hk]
    · simp [itemsAssign, itemsFind, hk, ih]

theorem itemsFind_assign_other {β : Type} (l : List (String × β)) (key other : String)
    (value : β) (h : other ≠ key) :
    itemsFind (itemsAssign l key value) other = itemsFind l other := by
  induction l with
  | nil =>
    have h2 : ¬ key = other := fun e => h e.symm
    simp [itemsAssign, itemsFind, h2]
  | cons hd tl ih =>
    obtain ⟨k, v⟩ := hd
    by_cases hk : k = key
    · have h2 : ¬ k = other := fun e => h (e.symm.trans hk)
      subst hk
      simp [itemsAssign, itemsFind, h2]
    · by_cases hko : k = other
      · subst hko
        simp [itemsAssign, itemsFind, hk]
      · simp [itemsAssign, itemsFind, hk, hko, ih]

theorem itemsFind_eq_none_iff {β : Type} (l : List (String × β)) (key : String) :
    itemsFind l key = none ↔ key ∉ l.map Prod.fst := by
  induction l with
  | nil => simp [itemsFind]
  | cons hd tl ih =>
    obtain ⟨k, v⟩ := hd
    by_cases hk : k = key
    · simp [itemsFind, hk]
    · have h2 : ¬ key = k := fun e => hk e.symm
      simp [itemsFind, hk, h2, ih]

theorem filter_key_eq_nil {β : Type} (l : List (String × β)) (key : String)
    (h : key ∉ l.map Prod.fst) : l.filter (fun kv => decide (kv.1 = key)) = [] := by
  rw [List.filter_eq_nil_iff]
  intro kv hkv hdec
  simp only [decide_eq_true_eq] at hdec
  exact h (List.mem_map.mpr ⟨kv, hkv, hdec⟩)

theorem filter_key_itemsAssign {β : Type} (l : List (String × β)) (key : String) (value : β)
    (h : (l.map Prod.fst).Nodup) :
    (itemsAssign l key value).filter (fun kv => decide (kv.1 = key)) = [(key, value)] := by
  induction l with
  | nil => simp [itemsAssign]
  | cons hd tl ih =>
    obtain ⟨k, v⟩ := hd
    simp only [List.map_cons, List.nodup_cons] at h
    by_cases hk : k = key
    · subst hk
      simp only [itemsAssign, if_true]
      rw [List.filter_cons]
      simp [filter_key_eq_nil tl k h.1]
    · simp only [itemsAssign, hk, if_false]
      rw [List.filter_cons]
      simp [hk, ih h.2]

theorem length_itemsAssign_of_mem {β : Type} (l : List (String × β)) (key : String) (value : β)
    (h : key ∈ l.map Prod.fst) : (itemsAssign l key value).length = l.length := by
  have hk := congrArg List.length (keys_itemsAssign l key value)
  simpa [h] using hk

namespace UMap

variable {β : Type}

theorem find_assign_same (m : UMap β) (key : String) (value : β) :
    (m.assign key value).find key = some value :=
  itemsFind_assign_same m.items key value

theorem find_assign_other (m : UMap β) (key other : String) (value : β) (h : other ≠ key) :
    (m.assign key value).find other = m.find other :=
  itemsFind_assign_other m.items key other value h

theorem find_empty (key : String) : (empty : UMap β).find key = none := rfl

end UMap

/-! ## Lemmas on `lookup` -/

namespace BindingSet

theorem lookup_own (mem : Heap) (fuel : Nat) (self : BindingSet) (Name value : String)
    (h : self.Entries.find Name = some value) :
    self.lookup mem (fuel + 1) Name = some value := by
  simp [lookup, h]

theorem lookup_parent (mem : Heap) (fuel : Nat) (self parent : BindingSet) (Name : String)
    (p : Nat) (h : self.Entries.find Name = none) (hp : self.ParentScope = some p)
    (hmem : mem[p]? = some parent) :
    self.lookup mem (fuel + 1) Name = parent.lookup mem fuel Name := by
  simp [lookup, h, hp, hmem]

theorem lookup_root (mem : Heap) (fuel : Nat) (self : BindingSet) (Name : String)
    (h : self.Entries.find Name = none) (hp : self.ParentScope = none) :
    self.lookup mem (fuel + 1) Name = some "" := by
  simp [lookup, h, hp]

end BindingSet

namespace Heap

theorem isParentChain_cons (mem : Heap) (self p : Nat) (rest : List Nat)
    (h : isParentChain mem self (p :: rest) = true) :
    ∃ s, mem[self]? = some s ∧ s.ParentScope = some p ∧ isParentChain mem p rest = true := by
  simp only [isParentChain, Bool.and_eq_true] at h
  obtain ⟨h1, h2⟩ := h
  cases hs : mem[self]? with
  | none => simp [hs] at h1
  | some s =>
    simp only [hs, decide_eq_true_eq] at h1
    exact ⟨s, rfl, h1, h2⟩

theorem isParentChain_nil (mem : Heap) (self : Nat) (h : isParentChain mem self [] = true) :
    ∃ s, mem[self]? = some s ∧ s.ParentScope = none := by
  simp only [isParentChain] at h
  cases hs : mem[self]? with
  | none => simp [hs] at h
  | some s =>
    simp only [hs, Option.isNone_iff_eq_none] at h
    exact ⟨s, rfl, h⟩

theorem isParentChain_self (mem : Heap) (self : Nat) (chain : List Nat)
    (h : isParentChain mem self chain = true) : ∃ s, mem[self]? = some s := by
  cases chain with
  | nil => obtain ⟨s, hs, _⟩ := isParentChain_nil mem self h; exact ⟨s, hs⟩
  | cons p rest => obtain ⟨s, hs, _⟩ := isParentChain_cons mem self p rest h; exact ⟨s, hs⟩

/-- Along a parent chain, `lookup` passes over the scopes that have no entry
for the name and returns the entry of the first scope that has one. -/
theorem lookup_through_chain (mem : Heap) (Name value : String) (k : Nat) (far : List Nat) :
    ∀ (near : List Nat) (self : Nat) (ancestors : List Nat),
      isParentChain mem self ancestors = true →
      self :: ancestors = near ++ k :: far →
      (∀ b ∈ near, entriesFind mem b Name = none) →
      entriesFind mem k Name = some value →
      ∀ fuel, near.length < fuel → lookup mem fuel self Name = some value := by
  intro near
  induction near with
  | nil =>
    intro self ancestors hchain hsplit _ hk fuel hfuel
    simp only [List.nil_append, List.cons.injEq] at hsplit
    obtain ⟨rfl, _⟩ := hsplit
    obtain ⟨s, hs⟩ := isParentChain_self mem self ancestors hchain
    obtain ⟨f, rfl⟩ : ∃ f, fuel = f + 1 := ⟨fuel - 1, by simp at hfuel; omega⟩
    simp only [entriesFind, hs, BindingSet.getEntries] at hk
    simp only [lookup, hs]
    exact BindingSet.lookup_own mem f s Name value hk
  | cons b near ih =>
    intro self ancestors hchain hsplit hnear hk fuel hfuel
    simp only [List.cons_append, List.cons.injEq] at hsplit
    obtain ⟨rfl, hrest⟩ := hsplit
    cases ancestors with
    | nil => cases near <;> simp at hrest
    | cons p rest =>
      obtain ⟨s, hs, hp, hchain2⟩ := isParentChain_cons mem self p rest hchain
      obtain ⟨ps, hps⟩ := isParentChain_self mem p rest hchain2
      obtain ⟨f, rfl⟩ : ∃ f, fuel = f + 1 := ⟨fuel - 1, by simp at hfuel; omega⟩
      have hmiss := hnear self (List.mem_cons_self _ _)
      simp only [entriesFind, hs, BindingSet.getEntries] at hmiss
      have hrec := ih p rest hchain2 hrest
        (fun b2 hb2 => hnear b2 (List.mem_cons_of_mem _ hb2)) hk f
        (by simp at hfuel; omega)
      simp only [lookup, hps] at hrec
      simp only [lookup, hs]
      rw [BindingSet.lookup_parent mem f s ps Name p hmiss hp hps]
      exact hrec

/-- Along a parent chain none of whose scopes has an entry for the name,
`lookup` reaches the root and returns the empty string. -/
theorem lookup_chain_miss (mem : Heap) (Name : String) :
    ∀ (ancestors : List Nat) (self : Nat),
      isParentChain mem self ancestors = true →
      (∀ b ∈ self :: ancestors, entriesFind mem b Name = none) →
      ∀ fuel, ancestors.length < fuel → lookup mem fuel self Name = some "" := by
  intro ancestors
  induction ancestors with
  | nil =>
    intro self hchain hmiss fuel hfuel
    obtain ⟨s, hs, hroot⟩ := isParentChain_nil mem self hchain
    obtain ⟨f, rfl⟩ : ∃ f, fuel = f + 1 := ⟨fuel - 1, by simp at hfuel; omega⟩
    have h0 := hmiss self (List.mem_cons_self _ _)
    simp only [entriesFind, hs, BindingSet.getEntries] at h0
    simp only [lookup, hs]
    exact BindingSet.lookup_root mem f s Name h0 hroot
  | cons p rest ih =>
    intro self hchain hmiss fuel hfuel
    obtain ⟨s, hs, hp, hchain2⟩ := isParentChain_cons mem self p rest hchain
    obtain ⟨ps, hps⟩ := isParentChain_self mem p rest hchain2
    obtain ⟨f, rfl⟩ : ∃ f, fuel = f + 1 := ⟨fuel - 1, by simp at hfuel; omega⟩
    have h0 := hmiss self (List.mem_cons_self _ _)
    simp only [entriesFind, hs, BindingSet.getEntries] at h0
    have hrec := ih p hchain2 (fun b hb => hmiss b (List.mem_cons_of_mem _ hb)) f
      (by simp at hfuel; omega)
    simp only [lookup, hps] at hrec
    simp only [lookup, hs]
    rw [BindingSet.lookup_parent mem f s ps Name p h0 hp hps]
    exact hrec

/-- Along a parent chain `lookup` returns, whatever the name, once it has one
unit of fuel per scope of the chain. -/
theorem lookup_returns_on_chain (mem : Heap) (Name : String) :
    ∀ (ancestors : List Nat) (self : Nat),
      isParentChain mem self ancestors = true →
      ∃ value, ∀ fuel, ancestors.length < fuel → lookup mem fuel self Name = some value := by
  intro ancestors
  induction ancestors with
  | nil =>
    intro self hchain
    obtain ⟨s, hs, hroot⟩ := isParentChain_nil mem self hchain
    cases hfind : s.Entries.find Name with
    | some v =>
      refine ⟨v, fun fuel hfuel => ?_⟩
      obtain ⟨f, rfl⟩ : ∃ f, fuel = f + 1 := ⟨fuel - 1, by omega⟩
      simp only [lookup, hs]
      exact BindingSet.lookup_own mem f s Name v hfind
    | none =>
      refine ⟨"", fun fuel hfuel => ?_⟩
      obtain ⟨f, rfl⟩ : ∃ f, fuel = f + 1 := ⟨fuel - 1, by omega⟩
      simp only [lookup, hs]
      exact BindingSet.lookup_root mem f s Name hfind hroot
  | cons p rest ih =>
    intro self hchain
    obtain ⟨s, hs, hp, hchain2⟩ := isParentChain_cons mem self p rest hchain
    obtain ⟨ps, hps⟩ := isParentChain_self mem p rest hchain2
    cases hfind : s.Entries.find Name with
    | some v =>
      refine ⟨v, fun fuel hfuel => ?_⟩
      obtain ⟨f, rfl⟩ : ∃ f, fuel = f + 1 := ⟨fuel - 1, by omega⟩
      simp only [lookup, hs]
      exact BindingSet.lookup_own mem f s Name v hfind
    | none =>
      obtain ⟨v, hv⟩ := ih p hchain2
      refine ⟨v, fun fuel hfuel => ?_⟩
      obtain ⟨f, rfl⟩ : ∃ f, fuel = f + 1 := ⟨fuel - 1, by omega⟩
      have hrec := hv f (by simp at hfuel; omega)
      simp only [lookup, hps] at hrec
      simp only [lookup, hs]
      rw [BindingSet.lookup_parent mem f s ps Name p hfind hp hps]
      exact hrec

end Heap

/-! ## Memories built parent first -/

theorem parentsOlder_nil : ParentsOlder [] := by
  intro a s h
  simp at h

theorem parentsOlder_apply (mem : Heap) (op : ScopeOp) (h : ParentsOlder mem)
    (hop : op.parentFirst mem = true) : ParentsOlder (op.apply mem) := by
  cases op with
  | construct q =>
    intro a s hs p hp
    simp only [ScopeOp.apply, Heap.construct] at hs
    rcases Nat.lt_trichotomy a mem.length with hlt | heq | hgt
    · rw [List.getElem?_append_left hlt] at hs
      exact h a s hs p hp
    · subst heq
      simp only [List.getElem?_concat_length, Option.some.injEq] at hs
      subst hs
      simp only [BindingSet.ctor] at hp
      subst hp
      simpa [ScopeOp.parentFirst] using hop
    · have : (mem ++ [BindingSet.ctor q])[a]? = none := by
        apply List.getElem?_eq_none
        simp
        omega
      rw [this] at hs
      cases hs
  | insert self Name Value =>
    intro a s hs p hp
    simp only [ScopeOp.apply, Heap.insert] at hs
    cases hself : mem[self]? with
    | none =>
      simp only [hself] at hs
      exact h a s hs p hp
    | some t =>
      simp only [hself] at hs
      by_cases ha : self = a
      · subst ha
        have hlen : self < mem.length := by
          by_contra hc
          rw [List.getElem?_eq_none (by omega)] at hself
          cases hself
        rw [List.getElem?_set_self hlen] at hs
        simp only [Option.some.injEq] at hs
        subst hs
        exact h self t hself p hp
      · rw [List.getElem?_set_ne ha] at hs
        exact h a s hs p hp
  | assign self other => simp [ScopeOp.parentFirst] at hop

theorem parentsOlder_run (ops : List ScopeOp) :
    ∀ (mem result : Heap), ParentsOlder mem → Heap.runParentFirst mem ops = some result →
      ParentsOlder result := by
  induction ops with
  | nil =>
    intro mem result h hrun
    simp only [Heap.runParentFirst, Option.some.injEq] at hrun
    subst hrun
    exact h
  | cons op ops ih =>
    intro mem result h hrun
    simp only [Heap.runParentFirst] at hrun
    by_cases hop : op.parentFirst mem = true
    · simp only [hop, if_true] at hrun
      exact ih (op.apply mem) result (parentsOlder_apply mem op h hop) hrun
    · simp [hop] at hrun

theorem BuiltParentFirst.parentsOlder {mem : Heap} (h : BuiltParentFirst mem) : ParentsOlder mem := by
  obtain ⟨ops, hops⟩ := h
  exact parentsOlder_run ops [] mem parentsOlder_nil hops

/-- In a memory whose parents are older, every scope has a parent chain, made
of strictly decreasing addresses. -/
theorem ParentsOlder.chain_exists {mem : Heap} (h : ParentsOlder mem) :
    ∀ (a : Nat), a < mem.length →
      ∃ chain : List Nat, Heap.isParentChain mem a chain = true ∧
        (a :: chain).Pairwise (fun x y => y < x) := by
  intro a
  induction a using Nat.strong_induction_on with
  | _ a ih =>
    intro ha
    have hs : mem[a]? = some mem[a] := List.getElem?_eq_getElem ha
    cases hp : (mem[a]).ParentScope with
    | none =>
      refine ⟨[], ?_, by simp⟩
      simp [Heap.isParentChain, hs, BindingSet.getParentScope, hp]
    | some p =>
      have hlt : p < a := h a _ hs p hp
      obtain ⟨chain, hchain, hpair⟩ := ih p hlt (by omega)
      refine ⟨p :: chain, ?_, ?_⟩
      · simp [Heap.isParentChain, hs, BindingSet.getParentScope, hp, hchain]
      · rw [List.pairwise_cons]
        refine ⟨?_, hpair⟩
        intro b hb
        rw [List.mem_cons] at hb
        rcases hb with rfl | hb
        · exact hlt
        · rw [List.pairwise_cons] at hpair
          exact Nat.lt_trans (hpair.1 b hb) hlt

theorem Heap.insert_getElem (mem : Heap) (a : Nat) (n v : String) (b : Nat) :
    (Heap.insert mem a n v)[b]? = (mem[b]?).map (fun s => if b = a then s.insert n v else s) := by
  cases ha : mem[a]? with
  | none =>
    simp only [Heap.insert, ha]
    by_cases hb : b = a
    · subst hb
      simp [ha]
    · cases hmb : mem[b]? with
      | none => rfl
      | some s => simp [hb]
  | some sa =>
    have hlen : a < mem.length := by
      by_contra hcon
      rw [List.getElem?_eq_none (by omega)] at ha
      cases ha
    simp only [Heap.insert, ha]
    by_cases hb : b = a
    · subst hb
      rw [List.getElem?_set_self hlen, ha]
      simp
    · rw [List.getElem?_set_ne (fun e => hb e.symm)]
      cases hmb : mem[b]? with
      | none => rfl
      | some s => simp [hb]

/-- Inserting `n` somewhere in the memory does not change what `lookup` of
another name returns, on any scope. -/
theorem lookup_insert_other (mem : Heap) (a : Nat) (n v m : String) (hne : m ≠ n) :
    ∀ (fuel : Nat) (s t : BindingSet), t.ParentScope = s.ParentScope →
      t.Entries.find m = s.Entries.find m →
      t.lookup (Heap.insert mem a n v) fuel m = s.lookup mem fuel m := by
  intro fuel
  induction fuel with
  | zero => intro s t _ _; rfl
  | succ f ih =>
    intro s t hpar hfind
    cases hs : s.Entries.find m with
    | some w =>
      rw [BindingSet.lookup_own _ f t m w (hfind.trans hs), BindingSet.lookup_own _ f s m w hs]
    | none =>
      have ht : t.Entries.find m = none := hfind.trans hs
      cases hp : s.ParentScope with
      | none =>
        rw [BindingSet.lookup_root _ f t m ht (hpar.trans hp),
          BindingSet.lookup_root _ f s m hs hp]
      | some q =>
        have hget := Heap.insert_getElem mem a n v q
        cases hq : mem[q]? with
        | none =>
          rw [hq] at hget
          simp [BindingSet.lookup, hs, ht, hp, hpar.trans hp, hq, hget]
        | some qs =>
          rw [hq] at hget
          simp only [Option.map] at hget
          rw [BindingSet.lookup_parent _ f t _ m q ht (hpar.trans hp) hget,
            BindingSet.lookup_parent _ f s qs m q hs hp hq]
          apply ih
          · by_cases hqa : q = a
            · simp [hqa, BindingSet.insert]
            · simp [hqa]
          · by_cases hqa : q = a
            · simp only [hqa, if_true, BindingSet.insert]
              exact UMap.find_assign_other qs.Entries n m v hne
            · simp [hqa]

/-- On a scope that is its own parent, `lookup` of a name it has no entry for
does not return, whatever the fuel. -/
theorem lookup_self_parent (mem : Heap) (a : Nat) (s : BindingSet) (Name : String)
    (hs : mem[a]? = some s) (hp : s.ParentScope = some a)
    (hfind : s.Entries.find Name = none) :
    ∀ fuel, s.lookup mem fuel Name = none := by
  intro fuel
  induction fuel with
  | zero => rfl
  | succ f ih =>
    rw [BindingSet.lookup_parent mem f s s Name a hfind hp hs]
    exact ih

theorem sampleProgram_builds : Heap.runParentFirst [] sampleProgram = some sampleScopes := by decide

theorem sampleScopes_builtParentFirst : BuiltParentFirst sampleScopes :=
  ⟨sampleProgram, sampleProgram_builds⟩

/-! ## Scoped lookup -/

/-- C1: on every chain of scopes (the scope `self`, its parent, and so on up
to the root) and for every name, `lookup(Name)` called on `self` returns the
value bound to the name in the nearest scope of the chain whose own entries
contain it: when the chain splits as `near ++ k :: far`, no scope of `near` has
an entry for the name and scope `k` binds it to `value`, the call returns
`value` as soon as it may make one call per scope of `near` and one on `k`.
With `near` non-empty this is a name defined only in an ancestor, at any
distance, resolved from a descendant. -/
theorem lookup_returns_nearest_binding (mem : Heap) (self : Nat) (ancestors near : List Nat)
    (k : Nat) (far : List Nat) (Name value : String)
    (hchain : Heap.isParentChain mem self ancestors = true)
    (hsplit : self :: ancestors = near ++ k :: far)
    (hnear : ∀ b ∈ near, Heap.entriesFind mem b Name = none)
    (hk : Heap.entriesFind mem k Name = some value) :
    ∀ fuel, near.length < fuel → Heap.lookup mem fuel self Name = some value :=
  Heap.lookup_through_chain mem Name value k far near self ancestors hchain hsplit hnear hk

/-- Witness of C1: in `sampleScopes` the grandchild (address 2) resolves
`cflags`, bound only by the top-level scope (address 0), to `-O2`. -/
theorem lookup_returns_nearest_binding_witness :
    Heap.isParentChain sampleScopes 2 [1, 0] = true ∧
    (2 :: [1, 0] = [2, 1] ++ 0 :: []) ∧
    (∀ b ∈ [2, 1], Heap.entriesFind sampleScopes b "cflags" = none) ∧
    Heap.entriesFind sampleScopes 0 "cflags" = some "-O2" ∧
    Heap.lookup sampleScopes 3 2 "cflags" = some "-O2" :=
  ⟨by decide, by decide, by decide, by decide,
   lookup_returns_nearest_binding sampleScopes 2 [1, 0] [2, 1] 0 [] "cflags" "-O2"
     (by decide) (by decide) (by decide) (by decide) 3 (by decide)⟩

/-- C2: on every chain of scopes none of which (the scope itself or any
ancestor) has an entry for the name, `lookup(Name)` returns the empty string:
it returns, and there is no failure outcome; in particular `lookup` of any
name on an empty, parentless BindingSet returns the empty string. -/
theorem lookup_unbound_returns_empty (mem : Heap) (self : Nat) (ancestors : List Nat)
    (Name : String)
    (hchain : Heap.isParentChain mem self ancestors = true)
    (hmiss : ∀ b ∈ self :: ancestors, Heap.entriesFind mem b Name = none) :
    (∀ fuel, ancestors.length < fuel → Heap.lookup mem fuel self Name = some "") ∧
    (∀ (other : Heap) (fuel : Nat) (Name2 : String),
      (BindingSet.ctor none).lookup other (fuel + 1) Name2 = some "") :=
  ⟨Heap.lookup_chain_miss mem Name ancestors self hchain hmiss,
   fun other fuel Name2 =>
     BindingSet.lookup_root other fuel (BindingSet.ctor none) Name2 rfl rfl⟩

/-- Witness of C2: no scope of `sampleScopes` binds `ldflags`, and the
grandchild resolves it to the empty string. -/
theorem lookup_unbound_returns_empty_witness :
    Heap.isParentChain sampleScopes 2 [1, 0] = true ∧
    (∀ b ∈ 2 :: [1, 0], Heap.entriesFind sampleScopes b "ldflags" = none) ∧
    Heap.lookup sampleScopes 3 2 "ldflags" = some "" :=
  ⟨by decide, by decide,
   (lookup_unbound_returns_empty sampleScopes 2 [1, 0] "ldflags" (by decide) (by decide)).1
     3 (by decide)⟩

/-- C3: let the scope at `p` bind `n` to `v1` in its own entries and let the
scope at `c`, another scope than `p`, be a child of it (in any memory, cyclic
ones included).  After `child.insert(n, v2)` the child's `lookup(n)` returns
`v2`, while the parent is not mutated: the object at `p` is the one it was
(same entries, same parent pointer), its `lookup(n)` returned `v1` before and
still returns `v1`, and its `lookup` of every name returns what it returned
before. -/
theorem insert_in_child_shadows_parent (mem : Heap) (p c : Nat) (parent child : BindingSet)
    (n v1 v2 : String)
    (hne : c ≠ p)
    (hp : mem[p]? = some parent)
    (hc : mem[c]? = some child)
    (_hpc : child.getParentScope = some p)
    (hbind : parent.getEntries.find n = some v1) :
    (∀ fuel, Heap.lookup (Heap.insert mem c n v2) (fuel + 1) c n = some v2) ∧
    (Heap.insert mem c n v2)[p]? = some parent ∧
    (∀ fuel, Heap.lookup mem (fuel + 1) p n = some v1) ∧
    (∀ fuel, Heap.lookup (Heap.insert mem c n v2) (fuel + 1) p n = some v1) ∧
    (∀ fuel Name, Heap.lookup (Heap.insert mem c n v2) fuel p Name =
      Heap.lookup mem fuel p Name) := by
  have hcget : (Heap.insert mem c n v2)[c]? = some (child.insert n v2) := by
    rw [Heap.insert_getElem, hc]
    simp
  have hpget : (Heap.insert mem c n v2)[p]? = some parent := by
    rw [Heap.insert_getElem, hp]
    have hpc2 : ¬ p = c := fun e => hne e.symm
    simp [hpc2]
  have hbefore : ∀ fuel, Heap.lookup mem (fuel + 1) p n = some v1 := by
    intro fuel
    simp only [Heap.lookup, hp]
    exact BindingSet.lookup_own mem fuel parent n v1 hbind
  have hafter : ∀ fuel, Heap.lookup (Heap.insert mem c n v2) (fuel + 1) p n = some v1 := by
    intro fuel
    simp only [Heap.lookup, hpget]
    exact BindingSet.lookup_own _ fuel parent n v1 hbind
  refine ⟨?_, hpget, hbefore, hafter, ?_⟩
  · intro fuel
    simp only [Heap.lookup, hcget]
    exact BindingSet.lookup_own _ fuel _ n v2 (UMap.find_assign_same child.Entries n v2)
  · intro fuel Name
    by_cases hName : Name = n
    · subst hName
      cases fuel with
      | zero => simp [Heap.lookup, hp, hpget, BindingSet.lookup]
      | succ f => rw [hafter f, hbefore f]
    · simp only [Heap.lookup, hpget, hp]
      exact lookup_insert_other mem c n v2 Name hName fuel parent parent rfl rfl

/-- Witness of C3: in `sampleScopes` the top-level scope binds `cc` to `gcc`;
its child (address 1) inserts `cc = tcc`. -/
theorem insert_in_child_shadows_parent_witness :
    (1 ≠ 0) ∧
    sampleScopes[0]? = some ⟨none, (UMap.empty.assign "cflags" "-O2").assign "cc" "gcc"⟩ ∧
    sampleScopes[1]? = some ⟨some 0, UMap.empty.assign "cc" "clang"⟩ ∧
    Heap.lookup (Heap.insert sampleScopes 1 "cc" "tcc") 1 1 "cc" = some "tcc" ∧
    Heap.lookup (Heap.insert sampleScopes 1 "cc" "tcc") 1 0 "cc" = some "gcc" :=
  ⟨by decide, by decide, by decide,
   (insert_in_child_shadows_parent sampleScopes 0 1
      ⟨none, (UMap.empty.assign "cflags" "-O2").assign "cc" "gcc"⟩
      ⟨some 0, UMap.empty.assign "cc" "clang"⟩ "cc" "gcc" "tcc"
      (by decide) (by decide) (by decide) (by decide) (by decide)).1 0,
   (insert_in_child_shadows_parent sampleScopes 0 1
      ⟨none, (UMap.empty.assign "cflags" "-O2").assign "cc" "gcc"⟩
      ⟨some 0, UMap.empty.assign "cc" "clang"⟩ "cc" "gcc" "tcc"
      (by decide) (by decide) (by decide) (by decide) (by decide)).2.2.2.1 0⟩

/-! ## Insertion and the scope's own entries -/

/-- C4: for every scope (whatever its entries and its parent pointer, in
whatever memory), every name `n` and all values `v1`, `v2`: after
`insert(n, v1)` followed by `insert(n, v2)`, `lookup(n)` on the scope returns
`v2`, and the scope's own entries hold exactly one binding for `n`, namely
`v2`; the second insert overwrote, it did not add an item. -/
theorem insert_twice_last_wins (mem : Heap) (fuel : Nat) (self : BindingSet)
    (n v1 v2 : String) :
    ((self.insert n v1).insert n v2).lookup mem (fuel + 1) n = some v2 ∧
    ((self.insert n v1).insert n v2).getEntries.find n = some v2 ∧
    ((self.insert n v1).insert n v2).getEntries.items.filter (fun kv => decide (kv.1 = n))
      = [(n, v2)] ∧
    ((self.insert n v1).insert n v2).getEntries.size = (self.insert n v1).getEntries.size := by
  have hfind : ((self.insert n v1).insert n v2).Entries.find n = some v2 :=
    UMap.find_assign_same (self.insert n v1).Entries n v2
  refine ⟨BindingSet.lookup_own mem fuel _ n v2 hfind, hfind, ?_, ?_⟩
  · exact filter_key_itemsAssign (self.insert n v1).Entries.items n v2
      (self.insert n v1).Entries.nodup
  · apply length_itemsAssign_of_mem
    have h1 : itemsFind (self.insert n v1).Entries.items n = some v1 :=
      UMap.find_assign_same self.Entries n v1
    by_contra hcon
    rw [(itemsFind_eq_none_iff _ n).mpr hcon] at h1
    cases h1

theorem foldl_insert_find (Name : String) :
    ∀ (bindings : List (String × String)) (s : BindingSet),
      (bindings.foldl (fun t kv => t.insert kv.1 kv.2) s).Entries.find Name =
        match bindings.reverse.find? (fun kv => decide (kv.1 = Name)) with
        | some kv => some kv.2
        | none => s.Entries.find Name := by
  intro bindings
  induction bindings with
  | nil => intro s; rfl
  | cons hd tl ih =>
    intro s
    obtain ⟨k, v⟩ := hd
    simp only [List.foldl_cons, List.reverse_cons, List.find?_append]
    rw [ih]
    cases hfind : tl.reverse.find? (fun kv => decide (kv.1 = Name)) with
    | some kv => simp
    | none =>
      by_cases hk : k = Name
      · subst hk
        simp [BindingSet.insert, UMap.find_assign_same]
      · have hne : Name ≠ k := fun e => hk e.symm
        simp [BindingSet.insert, UMap.find_assign_other _ _ _ _ hne, hk]

theorem foldl_insert_parent :
    ∀ (bindings : List (String × String)) (s : BindingSet),
      (bindings.foldl (fun t kv => t.insert kv.1 kv.2) s).ParentScope = s.ParentScope := by
  intro bindings
  induction bindings with
  | nil => intro s; rfl
  | cons hd tl ih => intro s; simp only [List.foldl_cons]; rw [ih]; rfl

theorem Heap.insertAll_getElem (self : Nat) :
    ∀ (bindings : List (String × String)) (mem : Heap) (s : BindingSet),
      mem[self]? = some s →
      (Heap.insertAll mem self bindings)[self]? =
        some (bindings.foldl (fun t kv => t.insert kv.1 kv.2) s) := by
  intro bindings
  induction bindings with
  | nil => intro mem s hs; simpa [Heap.insertAll] using hs
  | cons hd tl ih =>
    intro mem s hs
    have hlen : self < mem.length := by
      by_contra hcon
      rw [List.getElem?_eq_none (by omega)] at hs
      cases hs
    have hstep : (Heap.insert mem self hd.1 hd.2)[self]? = some (s.insert hd.1 hd.2) := by
      simp only [Heap.insert, hs]
      exact List.getElem?_set_self hlen
    have hrec := ih (Heap.insert mem self hd.1 hd.2) (s.insert hd.1 hd.2) hstep
    simpa [Heap.insertAll] using hrec

/-- C5: `getEntries()` reports the scope's own bindings only.  Construct a
scope with any parent pointer in any memory, whatever the scopes of that
memory bind: its entries are empty; and after any sequence of `insert` calls
on it, the keys of its entries are exactly the names inserted into it, each
mapped to the last value inserted for it. -/
theorem getEntries_reports_own_inserts (mem : Heap) (ParentScope : Option Nat)
    (bindings : List (String × String)) :
    ∃ fresh final : BindingSet,
      (Heap.construct mem ParentScope).1[(Heap.construct mem ParentScope).2]? = some fresh ∧
      fresh.getEntries.items = [] ∧
      (Heap.insertAll (Heap.construct mem ParentScope).1 (Heap.construct mem ParentScope).2
        bindings)[(Heap.construct mem ParentScope).2]? = some final ∧
      final.getParentScope = ParentScope ∧
      (∀ Name, Name ∈ final.getEntries.keys ↔ Name ∈ bindings.map Prod.fst) ∧
      (∀ Name, final.getEntries.find Name =
        (bindings.reverse.find? (fun kv => decide (kv.1 = Name))).map Prod.snd) := by
  have hfresh : (Heap.construct mem ParentScope).1[(Heap.construct mem ParentScope).2]? =
      some (BindingSet.ctor ParentScope) := by
    simp [Heap.construct]
  have hfind : ∀ Name,
      (bindings.foldl (fun t kv => t.insert kv.1 kv.2) (BindingSet.ctor ParentScope)).Entries.find
        Name = (bindings.reverse.find? (fun kv => decide (kv.1 = Name))).map Prod.snd := by
    intro Name
    rw [foldl_insert_find]
    cases bindings.reverse.find? (fun kv => decide (kv.1 = Name)) with
    | some kv => rfl
    | none => rfl
  refine ⟨BindingSet.ctor ParentScope, _, hfresh, rfl,
    Heap.insertAll_getElem _ bindings _ _ hfresh, ?_, ?_, hfind⟩
  · simp only [BindingSet.getParentScope]
    rw [foldl_insert_parent]
    rfl
  · intro Name
    have h1 := itemsFind_eq_none_iff
      (bindings.foldl (fun t kv => t.insert kv.1 kv.2)
        (BindingSet.ctor ParentScope)).Entries.items Name
    have h2 := hfind Name
    simp only [UMap.find] at h2
    simp only [BindingSet.getEntries, UMap.keys]
    constructor
    · intro hmem
      by_contra hcon
      have hnone : bindings.reverse.find? (fun kv => decide (kv.1 = Name)) = none := by
        rw [List.find?_eq_none]
        intro kv hkv hdec
        simp only [decide_eq_true_eq] at hdec
        exact hcon (List.mem_map.mpr ⟨kv, List.mem_reverse.mp hkv, hdec⟩)
      rw [hnone] at h2
      exact (h1.mp h2) hmem
    · intro hmem
      by_contra hcon
      have hnone := h1.mpr hcon
      rw [hnone] at h2
      obtain ⟨kv, hkv, hkey⟩ := List.mem_map.mp hmem
      have hfnone : bindings.reverse.find? (fun kv => decide (kv.1 = Name)) = none := by
        cases hf : bindings.reverse.find? (fun kv => decide (kv.1 = Name)) with
        | none => rfl
        | some x => rw [hf] at h2; cases h2
      rw [List.find?_eq_none] at hfnone
      exact hfnone kv (List.mem_reverse.mpr hkv) (by simpa using hkey)

/-! ## Termination of `lookup` -/

/-- C6, as stated, fails: a scope's parent is neither required to exist
before it nor fixed.  The constructor stores any pointer, so
`BindingSet a(&a);` builds a scope that is its own parent; and the copy
assignment the compiler generates rebinds `ParentScope`, so
`BindingSet a; BindingSet b(&a); a = b;` ends with `a` as its own parent.  On
both scopes `lookup` of a name without entry does not return, whatever the
fuel; neither memory is built parent first. -/
theorem lookup_diverges_on_cycle :
    Heap.exec [] selfParentProgram = selfParentScopes ∧
    (∀ fuel, Heap.lookup selfParentScopes fuel 0 "cflags" = none) ∧
    Heap.exec [] copyAssignProgram = copyAssignScopes ∧
    (∀ fuel, Heap.lookup copyAssignScopes fuel 0 "cflags" = none) ∧
    ¬ BuiltParentFirst selfParentScopes ∧ ¬ BuiltParentFirst copyAssignScopes :=
  ⟨by decide,
   fun fuel => lookup_self_parent selfParentScopes 0 ⟨some 0, UMap.empty⟩ "cflags"
     rfl rfl rfl fuel,
   by decide,
   fun fuel => lookup_self_parent copyAssignScopes 0 ⟨some 0, UMap.empty⟩ "cflags"
     rfl rfl rfl fuel,
   fun h => absurd (h.parentsOlder 0 ⟨some 0, UMap.empty⟩ rfl 0 rfl) (by decide),
   fun h => absurd (h.parentsOlder 0 ⟨some 0, UMap.empty⟩ rfl 0 rfl) (by decide)⟩

/-- C6, amended: `lookup` terminates on every scope of a memory built parent
first, that is by a program that gives each constructor a null pointer or the
address of a scope constructed before and that modifies scopes by `insert`
only (the class does not enforce this).  In such a memory every scope has a
finite parent chain ending at a parentless scope, the addresses along it
strictly decrease (no scope occurs twice: the chain is acyclic), and for every
name `lookup` returns a value as soon as it may make one call per scope of the
chain (the scope itself and its `chain.length` ancestors). -/
theorem lookup_terminates (mem : Heap) (self : Nat) (hmem : BuiltParentFirst mem)
    (hself : self < mem.length) :
    ∃ chain : List Nat,
      Heap.isParentChain mem self chain = true ∧
      (self :: chain).Pairwise (fun x y => y < x) ∧
      ∀ Name, ∃ value, ∀ fuel, chain.length < fuel →
        Heap.lookup mem fuel self Name = some value := by
  obtain ⟨chain, hchain, hpair⟩ := hmem.parentsOlder.chain_exists self hself
  exact ⟨chain, hchain, hpair, fun Name => Heap.lookup_returns_on_chain mem Name chain self hchain⟩

/-- Witness of C6 amended: the grandchild scope of `sampleScopes`. -/
theorem lookup_terminates_witness :
    BuiltParentFirst sampleScopes ∧ 2 < sampleScopes.length ∧
    ∃ chain : List Nat,
      Heap.isParentChain sampleScopes 2 chain = true ∧
      (2 :: chain).Pairwise (fun x y => y < x) ∧
      ∀ Name, ∃ value, ∀ fuel, chain.length < fuel →
        Heap.lookup sampleScopes fuel 2 Name = some value :=
  ⟨sampleScopes_builtParentFirst, by decide,
   lookup_terminates sampleScopes 2 sampleScopes_builtParentFirst (by decide)⟩

/-! ## Name uniqueness in the manifest's sets -/

namespace UMap

variable {β : Type}

theorem emplace_of_present (m : UMap β) (key : String) (value old : β)
    (h : m.find key = some old) : m.emplace key value = (m, false) := by
  simp [emplace, h]

theorem find_emplace_isSome (m : UMap β) (key : String) (value : β) :
    ∃ present, (m.emplace key value).1.find key = some present := by
  cases h : m.find key with
  | some old => exact ⟨old, by simp [emplace, h]⟩
  | none => exact ⟨value, by simp [emplace, h, find_assign_same]⟩

end UMap

/-- C7, as stated, fails: Manifest has no insertion of its own and rejects
nothing; `getNodes()`, `getPools()` and `getRules()` hand out the mutable
maps.  Through `getNodes()`, `Nodes["out.o"] = ...` performed twice is not
rejected the second time: the set holds the second Node (address 1) in place
of the first, so its contents changed.  And two Nodes of path `out.o`
emplaced under two keys are both in the set. -/
theorem second_insert_replaces :
    (Manifest.ctor.run
      [.nodesAssign "out.o" (some ⟨0, Node.ctor "out.o"⟩)]).getNodes.items
      = [("out.o", some ⟨0, Node.ctor "out.o"⟩)] ∧
    (Manifest.ctor.run
      [.nodesAssign "out.o" (some ⟨0, Node.ctor "out.o"⟩),
       .nodesAssign "out.o" (some ⟨1, Node.ctor "out.o"⟩)]).getNodes.items
      = [("out.o", some ⟨1, Node.ctor "out.o"⟩)] ∧
    (Manifest.ctor.run
      [.nodesAssign "out.o" (some ⟨0, Node.ctor "out.o"⟩),
       .nodesAssign "out.o" (some ⟨1, Node.ctor "out.o"⟩)]).getNodes
      ≠ (Manifest.ctor.run
      [.nodesAssign "out.o" (some ⟨0, Node.ctor "out.o"⟩)]).getNodes ∧
    (Manifest.ctor.run
      [.nodesEmplace "a" (some ⟨0, Node.ctor "out.o"⟩),
       .nodesEmplace "b" (some ⟨1, Node.ctor "out.o"⟩)]).getNodes.items
      = [("a", some ⟨0, Node.ctor "out.o"⟩), ("b", some ⟨1, Node.ctor "out.o"⟩)] := by
  decide

/-- C7, amended: name uniqueness is that of the maps, per key.  For every
Manifest and every key, each of the sets handed out by `getNodes()`,
`getPools()` and `getRules()` holds at most one item under the key; after an
`emplace` under the key, a second `emplace` under the same key is rejected
(its `bool` is false) and leaves the set as it was, with the same contents and
the same size; so does every `emplace` under a key that is present. -/
theorem emplace_under_present_key_rejected (m : Manifest) (key : String)
    (n1 n2 : UniquePtr Node) (p1 p2 : UniquePtr Pool) (r1 r2 : UniquePtr Rule) :
    (m.getNodes.keys.Nodup ∧
      (m.getNodes.emplace key n1).1.emplace key n2 = ((m.getNodes.emplace key n1).1, false) ∧
      ((m.getNodes.emplace key n1).1.emplace key n2).1.size
        = (m.getNodes.emplace key n1).1.size ∧
      (m.step (.nodesEmplace key n1)).step (.nodesEmplace key n2)
        = m.step (.nodesEmplace key n1) ∧
      (∀ old, m.getNodes.find key = some old → m.getNodes.emplace key n2 = (m.getNodes, false))) ∧
    (m.getPools.keys.Nodup ∧
      (m.getPools.emplace key p1).1.emplace key p2 = ((m.getPools.emplace key p1).1, false) ∧
      ((m.getPools.emplace key p1).1.emplace key p2).1.size
        = (m.getPools.emplace key p1).1.size ∧
      (∀ old, m.getPools.find key = some old → m.getPools.emplace key p2 = (m.getPools, false))) ∧
    (m.getRules.keys.Nodup ∧
      (m.getRules.emplace key r1).1.emplace key r2 = ((m.getRules.emplace key r1).1, false) ∧
      ((m.getRules.emplace key r1).1.emplace key r2).1.size
        = (m.getRules.emplace key r1).1.size ∧
      (∀ old, m.getRules.find key = some old →
        m.getRules.emplace key r2 = (m.getRules, false))) := by
  obtain ⟨xn, hxn⟩ := UMap.find_emplace_isSome m.getNodes key n1
  obtain ⟨xp, hxp⟩ := UMap.find_emplace_isSome m.getPools key p1
  obtain ⟨xr, hxr⟩ := UMap.find_emplace_isSome m.getRules key r1
  have hn := UMap.emplace_of_present _ key n2 xn hxn
  have hp := UMap.emplace_of_present _ key p2 xp hxp
  have hr := UMap.emplace_of_present _ key r2 xr hxr
  refine ⟨⟨m.getNodes.nodup, hn, by rw [hn], ?_,
      fun old h => UMap.emplace_of_present _ key n2 old h⟩,
    ⟨m.getPools.nodup, hp, by rw [hp], fun old h => UMap.emplace_of_present _ key p2 old h⟩,
    ⟨m.getRules.nodup, hr, by rw [hr], fun old h => UMap.emplace_of_present _ key r2 old h⟩⟩
  simp only [Manifest.getNodes] at hn
  simp only [Manifest.step, hn]

/-- Witness of C7 amended: `sampleManifest` holds `out.o`; the `emplace` of
another Node under `out.o` is rejected and the set still holds the first. -/
theorem emplace_under_present_key_rejected_witness :
    sampleManifest.getNodes.find "out.o" = some (some ⟨0, Node.ctor "out.o"⟩) ∧
    sampleManifest.getNodes.emplace "out.o" (some ⟨1, Node.ctor "out.o"⟩)
      = (sampleManifest.getNodes, false) ∧
    sampleManifest.getNodes.items = [("out.o", some ⟨0, Node.ctor "out.o"⟩)] :=
  ⟨by decide,
   (emplace_under_present_key_rejected sampleManifest "out.o" none
      (some ⟨1, Node.ctor "out.o"⟩) none none none none).1.2.2.2.2
      (some ⟨0, Node.ctor "out.o"⟩) (by decide),
   by decide⟩

/-! ## Default targets -/

theorem itemsAssign_of_not_found {β : Type} (l : List (String × β)) (key : String) (value : β)
    (h : itemsFind l key = none) : itemsAssign l key value = l ++ [(key, value)] := by
  induction l with
  | nil => rfl
  | cons hd tl ih =>
    obtain ⟨k, v⟩ := hd
    by_cases hk : k = key
    · simp [itemsFind, hk] at h
    · simp only [itemsFind, hk, if_false] at h
      simp [itemsAssign, hk, ih h]

namespace Manifest

theorem ownsNode_step_emplace (m : Manifest) (key : String) (value : UniquePtr Node) (p : Nat)
    (h : m.ownsNode p = true) : (m.step (.nodesEmplace key value)).ownsNode p = true := by
  cases hfind : m.Nodes.find key with
  | some old =>
    simpa [step, ownsNode, getNodes, UMap.emplace, hfind] using h
  | none =>
    have hitems : itemsAssign m.Nodes.items key value = m.Nodes.items ++ [(key, value)] :=
      itemsAssign_of_not_found _ _ _ hfind
    simp only [ownsNode, getNodes] at h
    simp only [step, ownsNode, getNodes, UMap.emplace, hfind, UMap.assign, hitems,
      List.any_append, Bool.or_eq_true]
    exact Or.inl h

theorem defaultTargetsInNodes_step (m : Manifest) (op : ManifestOp)
    (hinv : m.defaultTargetsInNodes = true) (hop : m.keepsTargets op = true) :
    (m.step op).defaultTargetsInNodes = true := by
  cases op with
  | nodesEmplace key value =>
    simp only [defaultTargetsInNodes, getDefaultTargets, List.all_eq_true] at hinv ⊢
    intro t ht
    have h1 := hinv t (by simpa [step] using ht)
    cases t with
    | none => rfl
    | some p => exact ownsNode_step_emplace m key value p h1
  | nodesAssign key value => simp [keepsTargets] at hop
  | nodesErase key => simp [keepsTargets] at hop
  | defaultTargetsPushBack target =>
    simp only [defaultTargetsInNodes, getDefaultTargets, List.all_eq_true] at hinv ⊢
    intro t ht
    simp only [step, List.mem_append, List.mem_singleton] at ht
    rcases ht with ht | rfl
    · have h1 := hinv t ht
      cases t with
      | none => rfl
      | some p => simpa [step, ownsNode, getNodes] using h1
    · cases t with
      | none => rfl
      | some p =>
        simp only [keepsTargets] at hop
        simpa [step, ownsNode, getNodes] using hop

theorem defaultTargetsInNodes_run (ops : List ManifestOp) :
    ∀ (m : Manifest), m.defaultTargetsInNodes = true → m.allKeepTargets ops = true →
      (m.run ops).defaultTargetsInNodes = true := by
  induction ops with
  | nil => intro m hinv _; simpa [run] using hinv
  | cons op ops ih =>
    intro m hinv hall
    simp only [allKeepTargets, Bool.and_eq_true] at hall
    have hstep := defaultTargetsInNodes_step m op hinv hall.1
    have hrec := ih (m.step op) hstep hall.2
    simpa [run] using hrec

end Manifest

/-- C8, as stated, fails: the accessors hand out the containers themselves
and check nothing.  From a default-constructed Manifest a caller adds the node
`all` (owned at address 0) through `getNodes()` and pushes the address 1 of a
Node that the Nodes set does not own through `getDefaultTargets()`; the
default-targets list then references a Node absent from the Nodes set. -/
theorem default_target_outside_nodes :
    (Manifest.ctor.run
      [.nodesEmplace "all" (some ⟨0, Node.ctor "all"⟩),
       .defaultTargetsPushBack (some 1)]).getDefaultTargets = [some 1] ∧
    (Manifest.ctor.run
      [.nodesEmplace "all" (some ⟨0, Node.ctor "all"⟩),
       .defaultTargetsPushBack (some 1)]).ownsNode 1 = false ∧
    (Manifest.ctor.run
      [.nodesEmplace "all" (some ⟨0, Node.ctor "all"⟩),
       .defaultTargetsPushBack (some 1)]).defaultTargetsInNodes = false := by
  decide

/-- C8, amended: Manifest does not enforce the invariant, its callers keep it.
It holds for a default-constructed Manifest and in every state reached from it
by mutations that only add to the Nodes set or append to the default-targets
list a null pointer or the address of a Node the Nodes set owns at that time:
in every such state every Node referenced in the default-targets list is
present in the Nodes set. -/
theorem default_targets_in_nodes_when_kept (ops : List ManifestOp)
    (hkept : Manifest.ctor.allKeepTargets ops = true) :
    (Manifest.ctor.run ops).defaultTargetsInNodes = true :=
  Manifest.defaultTargetsInNodes_run ops Manifest.ctor rfl hkept

/-- Witness of C8 amended: the node `all` is added, then made a default target. -/
theorem default_targets_in_nodes_when_kept_witness :
    Manifest.ctor.allKeepTargets
      [.nodesEmplace "all" (some ⟨0, Node.ctor "all"⟩),
       .defaultTargetsPushBack (some 0)] = true ∧
    (Manifest.ctor.run
      [.nodesEmplace "all" (some ⟨0, Node.ctor "all"⟩),
       .defaultTargetsPushBack (some 0)]).defaultTargetsInNodes = true :=
  ⟨by decide,
   default_targets_in_nodes_when_kept
     [.nodesEmplace "all" (some ⟨0, Node.ctor "all"⟩), .defaultTargetsPushBack (some 0)]
     (by decide)⟩

/-! ## Node and Pool -/

/-- C9, as stated, fails: the constructor of Node takes every string and
checks nothing, so a Node is constructed from the empty string and its
`getPath()` returns the empty string. -/
theorem node_of_empty_path :
    (Node.ctor "").getPath = "" ∧ ¬ (∀ n : Node, n.getPath ≠ "") :=
  ⟨rfl, fun h => h (Node.ctor "") rfl⟩

/-- C9, amended: a Node is constructed from every string, the empty one
included, and for every `p` the Node constructed from `p` returns exactly `p`
from `getPath()`. -/
theorem node_getPath_ctor (p : String) : (Node.ctor p).getPath = p := rfl

theorem Pool.setDepths_getName (values : List uint32_t) :
    ∀ (self : Pool), (self.setDepths values).getName = self.getName := by
  induction values with
  | nil => intro self; rfl
  | cons v vs ih =>
    intro self
    simp only [Pool.setDepths, List.foldl_cons] at ih ⊢
    rw [ih]
    rfl

theorem Pool.setDepths_getDepth (values : List uint32_t) :
    ∀ (self : Pool), (self.setDepths values).getDepth = values.getLast?.getD self.getDepth := by
  induction values with
  | nil => intro self; rfl
  | cons v vs ih =>
    intro self
    simp only [Pool.setDepths, List.foldl_cons] at ih ⊢
    rw [ih]
    cases vs with
    | nil => rfl
    | cons w ws =>
      rw [List.getLast?_eq_getLast (w :: ws) (List.cons_ne_nil w ws)]
      simp [List.getLast?_cons_cons, List.getLast?_eq_getLast (w :: ws) (List.cons_ne_nil w ws)]

/-- C10: for every pool name `n` and every sequence of `setDepth` calls on
the Pool constructed from `n`, `getDepth()` returns the argument of the most
recent call, or 0 if there was none, and `getName()` returns `n` after every
number of the calls. -/
theorem pool_depth_is_last_set (n : String) (values : List uint32_t) :
    ((Pool.ctor n).setDepths values).getDepth = values.getLast?.getD 0 ∧
    (Pool.ctor n).getDepth = 0 ∧
    (∀ k, ((Pool.ctor n).setDepths (values.take k)).getName = n) ∧
    (∀ (self : Pool) (value : uint32_t),
      (self.setDepth value).getDepth = value ∧ (self.setDepth value).getName = self.getName) :=
  ⟨Pool.setDepths_getDepth values (Pool.ctor n), rfl,
   fun k => Pool.setDepths_getName (values.take k) (Pool.ctor n),
   fun _ _ => ⟨rfl, rfl⟩⟩

/-! ## Frame and aliasing of `insert` -/

/-- C13: `insert` changes the resolution of the inserted name only.  For
every scope (at any address of any memory), all names `n` and `m` with `m`
different from `n`, and every value `v`: `lookup(m)` on the scope after
`insert(n, v)` returns what `lookup(m)` returned before, and the scope's own
entry for `m`, present or absent, is unchanged; in a memory built parent
first both calls do return a value. -/
theorem insert_leaves_other_names (mem : Heap) (self : Nat) (n m v : String) (hne : m ≠ n) :
    (∀ fuel, Heap.lookup (Heap.insert mem self n v) fuel self m = Heap.lookup mem fuel self m) ∧
    Heap.entriesFind (Heap.insert mem self n v) self m = Heap.entriesFind mem self m ∧
    (BuiltParentFirst mem → self < mem.length →
      ∃ value calls, ∀ fuel, calls < fuel →
        Heap.lookup mem fuel self m = some value ∧
        Heap.lookup (Heap.insert mem self n v) fuel self m = some value) := by
  have hlook : ∀ fuel,
      Heap.lookup (Heap.insert mem self n v) fuel self m = Heap.lookup mem fuel self m := by
    intro fuel
    have hget := Heap.insert_getElem mem self n v self
    cases hs : mem[self]? with
    | none =>
      rw [hs] at hget
      simp [Heap.lookup, hs, hget]
    | some s =>
      rw [hs] at hget
      simp only [Option.map, if_true] at hget
      simp only [Heap.lookup, hs, hget]
      exact lookup_insert_other mem self n v m hne fuel s (s.insert n v) rfl
        (UMap.find_assign_other s.Entries n m v hne)
  refine ⟨hlook, ?_, ?_⟩
  · have hget := Heap.insert_getElem mem self n v self
    cases hs : mem[self]? with
    | none =>
      rw [hs] at hget
      simp [Heap.entriesFind, hs, hget]
    | some s =>
      rw [hs] at hget
      simp only [Option.map, if_true] at hget
      simp only [Heap.entriesFind, hs, hget, BindingSet.getEntries]
      exact UMap.find_assign_other s.Entries n m v hne
  · intro hmem hself
    obtain ⟨chain, hchain, _⟩ := hmem.parentsOlder.chain_exists self hself
    obtain ⟨value, hvalue⟩ := Heap.lookup_returns_on_chain mem m chain self hchain
    refine ⟨value, chain.length, fun fuel hfuel => ⟨hvalue fuel hfuel, ?_⟩⟩
    rw [hlook fuel]
    exact hvalue fuel hfuel

/-- Witness of C13: in `sampleScopes` the child (address 1) inserts
`cc = tcc`; its resolution of `cflags` stays `-O2`. -/
theorem insert_leaves_other_names_witness :
    "cflags" ≠ "cc" ∧
    Heap.lookup (Heap.insert sampleScopes 1 "cc" "tcc") 2 1 "cflags" = some "-O2" ∧
    Heap.lookup sampleScopes 2 1 "cflags" = some "-O2" ∧
    Heap.entriesFind (Heap.insert sampleScopes 1 "cc" "tcc") 1 "cflags" = none :=
  ⟨by decide,
   ((insert_leaves_other_names sampleScopes 1 "cc" "cflags" "tcc" (by decide)).1 2).trans
     (by decide),
   by decide,
   ((insert_leaves_other_names sampleScopes 1 "cc" "cflags" "tcc" (by decide)).2.1).trans
     (by decide)⟩

/-- C14: a binding to the empty string is a definition, not an absence.  For
every scope whose own entries bind `n` to the empty string, `lookup(n)` on it
returns the empty string from its first call, in every memory: whatever its
ancestors bind `n` to, the parent is not consulted. -/
theorem empty_value_is_a_definition (mem : Heap) (self : Nat) (child : BindingSet) (n : String)
    (hchild : mem[self]? = some child)
    (hbind : child.getEntries.find n = some "") :
    (∀ fuel, Heap.lookup mem (fuel + 1) self n = some "") ∧
    (∀ (other : Heap) (fuel : Nat), child.lookup other (fuel + 1) n = some "") := by
  refine ⟨fun fuel => ?_, fun other fuel => BindingSet.lookup_own other fuel child n "" hbind⟩
  simp only [Heap.lookup, hchild]
  exact BindingSet.lookup_own mem fuel child n "" hbind

/-- Witness of C14: in `sampleShadowed` the top-level scope binds `cflags` to
`-O2` and its child binds it to the empty string; the child resolves `cflags`
to the empty string with a single call. -/
theorem empty_value_is_a_definition_witness :
    Heap.entriesFind sampleShadowed 0 "cflags" = some "-O2" ∧
    sampleShadowed[1]? = some ⟨some 0, (UMap.empty.assign "cc" "clang").assign "cflags" ""⟩ ∧
    Heap.lookup sampleShadowed 1 1 "cflags" = some "" :=
  ⟨by decide, by decide,
   (empty_value_is_a_definition sampleShadowed 1
      ⟨some 0, (UMap.empty.assign "cc" "clang").assign "cflags" ""⟩ "cflags"
      (by decide) (by decide)).1 0⟩

/-- C15: scopes refer to their parent, they do not copy it.  Let the scope
at `c` have been constructed with the scope at `p`, another scope than `c`,
as parent, and let its own entries not contain `n` (in any memory, cyclic ones
included).  A `parent.insert(n, v)` performed then is observed by the child:
`lookup(n)` on the child returns `v`, while the child object, its entries
included, is unchanged. -/
theorem parent_insert_seen_by_child (mem : Heap) (p c : Nat) (parent child : BindingSet)
    (n v : String)
    (hne : c ≠ p)
    (hp : mem[p]? = some parent)
    (hc : mem[c]? = some child)
    (hpc : child.getParentScope = some p)
    (hn : child.getEntries.find n = none) :
    (∀ fuel, Heap.lookup (Heap.insert mem p n v) (fuel + 2) c n = some v) ∧
    (Heap.insert mem p n v)[c]? = some child ∧
    Heap.entriesFind (Heap.insert mem p n v) c n = none := by
  have hcget : (Heap.insert mem p n v)[c]? = some child := by
    rw [Heap.insert_getElem, hc]
    simp [hne]
  have hpget : (Heap.insert mem p n v)[p]? = some (parent.insert n v) := by
    rw [Heap.insert_getElem, hp]
    simp
  refine ⟨fun fuel => ?_, hcget, ?_⟩
  · simp only [Heap.lookup, hcget]
    rw [BindingSet.lookup_parent _ (fuel + 1) child (parent.insert n v) n p hn hpc hpget]
    exact BindingSet.lookup_own _ fuel _ n v (UMap.find_assign_same parent.Entries n v)
  · simp only [Heap.entriesFind, hcget]
    exact hn

/-- Witness of C15: in `sampleScopes` the grandchild (address 2) was
constructed with the scope at address 1 as parent and binds nothing; after
that parent inserts `ldflags = -s` the grandchild resolves `ldflags` to `-s`. -/
theorem parent_insert_seen_by_child_witness :
    (2 ≠ 1) ∧
    sampleScopes[2]? = some ⟨some 1, UMap.empty⟩ ∧
    Heap.lookup sampleScopes 3 2 "ldflags" = some "" ∧
    Heap.lookup (Heap.insert sampleScopes 1 "ldflags" "-s") 2 2 "ldflags" = some "-s" :=
  ⟨by decide, by decide, by decide,
   (parent_insert_seen_by_child sampleScopes 1 2 ⟨some 0, UMap.empty.assign "cc" "clang"⟩
      ⟨some 1, UMap.empty⟩ "ldflags" "-s" (by decide)
      (by decide) (by decide) (by decide) (by decide)).1 0⟩

/-! ## The default-constructed Manifest -/

/-- C16: a default-constructed Manifest is empty.  Its Nodes, Pools and Rules
sets and its default-targets list have no elements; its top-level BindingSet
has no parent scope and no entries, so `lookup` of every name on
`getBindings()` returns the empty string (in every memory, from the first
call). -/
theorem default_manifest_is_empty :
    Manifest.ctor.getNodes.size = 0 ∧ Manifest.ctor.getNodes.items = [] ∧
    Manifest.ctor.getPools.size = 0 ∧ Manifest.ctor.getPools.items = [] ∧
    Manifest.ctor.getRules.size = 0 ∧ Manifest.ctor.getRules.items = [] ∧
    Manifest.ctor.getDefaultTargets = [] ∧
    Manifest.ctor.getBindings.getParentScope = none ∧
    Manifest.ctor.getBindings.getEntries.items = [] ∧
    (∀ (mem : Heap) (fuel : Nat) (Name : String),
      Manifest.ctor.getBindings.lookup mem (fuel + 1) Name = some "") :=
  ⟨rfl, rfl, rfl, rfl, rfl, rfl, rfl, rfl, rfl,
   fun mem fuel Name => BindingSet.lookup_root mem fuel _ Name rfl rfl⟩

/-! ## The result store: round trip and schema reset -/

namespace core

/-- C12: opening a store at a path whose stored client schema version differs
from the `clientSchemaVersion` passed at open time succeeds, and yields a store
with no stored rule result (`lookupRuleResult` returns not-found for every
rule) and the iteration counter at its initial value 0, the value a newly
created store has; the prior content is gone from the storage as well. -/
theorem schema_mismatch_resets (policy : Policy) (storage : Storage) (path : String)
    (version : uint32_t) (old : Database)
    (hstored : storage.find path = some (.stored old))
    (hne : old.clientSchemaVersion ≠ version) :
    ∃ storage2 db,
      createSQLiteBuildDB policy storage path version = .ok (storage2, db) ∧
      (∀ rule, db.lookupRuleResult rule = (false, none)) ∧
      db.content.results.size = 0 ∧
      db.getCurrentIteration = 0 ∧
      db.content = Database.cleared version ∧
      storage2.find path = some (.stored (Database.cleared version)) ∧
      (∀ (empty : Storage) (created : Storage × BuildDB), empty.find path = none →
        createSQLiteBuildDB policy empty path version = .ok created →
        created.2.getCurrentIteration = db.getCurrentIteration ∧
        created.2.content = db.content) := by
  refine ⟨storage.assign path (.stored (Database.cleared version)),
    ⟨policy, path, Database.cleared version, false⟩, ?_, ?_, rfl, rfl, rfl,
    UMap.find_assign_same storage path _, ?_⟩
  · simp [createSQLiteBuildDB, hstored, hne]
  · intro rule
    rfl
  · intro empty created hempty hcreated
    simp only [createSQLiteBuildDB, hempty, Except.ok.injEq] at hcreated
    subst hcreated
    exact ⟨rfl, rfl⟩

/-- Witness of C12: a store opened on `build.db` with schema version 1 has
completed a build that set the iteration to 5 and wrote a Result for `link`;
reopened with schema version 2 it finds no Result for `link`. -/
theorem schema_mismatch_resets_witness :
    (sampleCompleted ⟨false, false⟩).2.lookupRuleResult "link" = (true, some sampleResult) ∧
    (sampleCompleted ⟨false, false⟩).2.getCurrentIteration = 5 ∧
    (sampleCompleted ⟨false, false⟩).1.find "build.db"
      = some (.stored (sampleCompleted ⟨false, false⟩).2.content) ∧
    (sampleCompleted ⟨false, false⟩).2.content.clientSchemaVersion ≠ 2 ∧
    ∃ storage2 db,
      createSQLiteBuildDB ⟨false, false⟩ (sampleCompleted ⟨false, false⟩).1 "build.db" 2
        = .ok (storage2, db) ∧
      db.lookupRuleResult "link" = (false, none) ∧ db.getCurrentIteration = 0 :=
  ⟨by decide, by decide, by decide, by decide,
   match schema_mismatch_resets ⟨false, false⟩ (sampleCompleted ⟨false, false⟩).1 "build.db" 2
      (sampleCompleted ⟨false, false⟩).2.content (by decide) (by decide) with
   | ⟨storage2, db, hopen, hmiss, _, hiter, _⟩ => ⟨storage2, db, hopen, hmiss "link", hiter⟩⟩

end core

end llbuild
